import Mathlib

/-!
Verification of the message-normalization and chapter-grouping pipeline of
`mm-redux.py` (Memeoirs Redux).  Python strings are modelled as `List Char`;
`str.replace` is modelled by `pyReplace` (left-to-right, non-overlapping,
continuing after each replacement); external library calls (dateutil's
`parse`, `EmailReplyParser`) are modelled as oracle parameters, while every
piece of logic written in the repository itself is translated directly.
-/

set_option maxRecDepth 10000

abbrev Chars := List Char

/-- Python's default whitespace set for `str.strip` / `str.rstrip`
(ASCII fragment; the repository's data is ASCII-oriented). -/
def isPySpace (c : Char) : Bool :=
  c = ' ' || c = '\t' || c = '\n' || c = '\r' || c = '\x0b' || c = '\x0c'

/-- `str.rstrip()`. -/
def pyStripR (l : Chars) : Chars :=
  (l.reverse.dropWhile isPySpace).reverse

/-- `str.strip()`. -/
def pyStrip (l : Chars) : Chars :=
  (pyStripR l).dropWhile isPySpace

/-- Fuel-driven core of Python `str.replace`: scan left to right; on a match
of `pat` emit `repl` and continue after the matched text (the replacement is
not rescanned).  Fuel is one unit per emitted position, so `s.length` fuel
always suffices. -/
def pyReplaceF (pat repl : Chars) : Nat → Chars → Chars
  | _, [] => []
  | 0, s => s
  | fuel + 1, c :: rest =>
    if pat.isPrefixOf (c :: rest) ∧ pat ≠ [] then
      repl ++ pyReplaceF pat repl fuel (List.drop (pat.length - 1) rest)
    else
      c :: pyReplaceF pat repl fuel rest

/-- Python `s.replace(pat, repl)` (for the nonempty patterns the program uses). -/
def pyReplace (pat repl s : Chars) : Chars :=
  pyReplaceF pat repl s.length s

theorem pyReplaceF_irrel (pat repl : Chars) :
    ∀ f₁ : Nat, ∀ s : Chars, ∀ f₂ : Nat, s.length ≤ f₁ → s.length ≤ f₂ →
      pyReplaceF pat repl f₁ s = pyReplaceF pat repl f₂ s := by
  intro f₁
  induction f₁ with
  | zero =>
    intro s f₂ h₁ _
    have : s = [] := by
      cases s with
      | nil => rfl
      | cons c r => simp at h₁
    subst this
    cases f₂ <;> rfl
  | succ g ih =>
    intro s f₂ h₁ h₂
    cases s with
    | nil => cases f₂ <;> rfl
    | cons c rest =>
      cases f₂ with
      | zero => simp at h₂
      | succ g₂ =>
        simp only [pyReplaceF]
        by_cases h : pat.isPrefixOf (c :: rest) ∧ pat ≠ []
        · simp only [if_pos h]
          have hd : (List.drop (pat.length - 1) rest).length ≤ rest.length := by
            simp [List.length_drop]
          have hr : rest.length ≤ g := by simpa using h₁
          have hr₂ : rest.length ≤ g₂ := by simpa using h₂
          rw [ih _ g₂ (le_trans hd hr) (le_trans hd hr₂)]
        · simp only [if_neg h]
          have hr : rest.length ≤ g := by simpa using h₁
          have hr₂ : rest.length ≤ g₂ := by simpa using h₂
          rw [ih _ g₂ hr hr₂]

@[simp] theorem pyReplace_nil (pat repl : Chars) : pyReplace pat repl [] = [] := rfl

theorem pyReplace_cons (pat repl : Chars) (c : Char) (rest : Chars) :
    pyReplace pat repl (c :: rest) =
      if pat.isPrefixOf (c :: rest) ∧ pat ≠ [] then
        repl ++ pyReplace pat repl (List.drop (pat.length - 1) rest)
      else
        c :: pyReplace pat repl rest := by
  show pyReplaceF pat repl (rest.length + 1) (c :: rest) = _
  simp only [pyReplaceF]
  by_cases h : pat.isPrefixOf (c :: rest) ∧ pat ≠ []
  · simp only [if_pos h]
    have hd : (List.drop (pat.length - 1) rest).length ≤ rest.length := by
      simp [List.length_drop]
    rw [pyReplaceF_irrel pat repl rest.length _ (List.drop (pat.length - 1) rest).length
      hd le_rfl]
    rfl
  · simp only [if_neg h]
    rfl

/-! ## Date and season classification (`get_season`, `make_chapter_name`) -/

/-- A Python `datetime.date`-like value. -/
structure PyDate where
  year : Nat
  month : Nat
  day : Nat
deriving DecidableEq

def isLeap (y : Nat) : Bool :=
  y % 4 = 0 && (y % 100 ≠ 0 || y % 400 = 0)

def daysInMonth (y m : Nat) : Nat :=
  if m = 2 then (if isLeap y then 29 else 28)
  else if m = 4 ∨ m = 6 ∨ m = 9 ∨ m = 11 then 30
  else 31

/-- Validity of a calendar date (Python's `datetime.date` domain). -/
def validDate (d : PyDate) : Prop :=
  1 ≤ d.year ∧ d.year ≤ 9999 ∧ 1 ≤ d.month ∧ d.month ≤ 12 ∧
    1 ≤ d.day ∧ d.day ≤ daysInMonth d.year d.month

instance (d : PyDate) : Decidable (validDate d) := by
  unfold validDate; infer_instance

/-- Lexicographic comparison of (month, day) pairs; equals `date(2000,m₁,d₁)
≤ date(2000,m₂,d₂)` for dates projected onto the dummy year. -/
def mdLE (a b : Nat × Nat) : Bool :=
  a.1 < b.1 || (a.1 = b.1 && a.2 ≤ b.2)

/-- The season table of `get_season` (dummy leap year 2000): inclusive
(start, end) day-month ranges paired with season ids. -/
def seasonTable : List (Nat × (Nat × Nat) × (Nat × Nat)) :=
  [(0, (1, 1), (3, 20)),
   (1, (3, 21), (6, 20)),
   (2, (6, 21), (9, 22)),
   (3, (9, 23), (12, 20)),
   (4, (12, 21), (12, 31))]

/-- `get_season`: project the date onto the dummy year 2000 (only month and
day survive the projection; the projection never fails because 2000 is a
leap year) and return the id of the first containing range.  `next` over an
exhausted generator raises `StopIteration`, modelled as `none`. -/
def get_season (now : PyDate) : Option Nat :=
  (seasonTable.find? fun t =>
    mdLE t.2.1 (now.month, now.day) && mdLE (now.month, now.day) t.2.2).map (·.1)

/-- `add_year`: `d.replace(year=d.year+1)`, falling back on the day-delta
computation for Feb 29 of a leap year; for Feb 29 the fallback
`d + (date(y+1,1,1) - date(y,1,1))` adds 366 days, landing on Mar 1 of
year `y+1`. -/
def add_year (d : PyDate) : PyDate :=
  if validDate ⟨d.year + 1, d.month, d.day⟩ then ⟨d.year + 1, d.month, d.day⟩
  else ⟨d.year + 1, 3, 1⟩

/-- `sub_year`: `d.replace(year=d.year-1)`, falling back on the day-delta
computation for Feb 29 of a leap year; for Feb 29 the fallback
`d + (date(y-1,1,1) - date(y,1,1))` subtracts 365 days, landing on Mar 1 of
year `y-1`. -/
def sub_year (d : PyDate) : PyDate :=
  if validDate ⟨d.year - 1, d.month, d.day⟩ then ⟨d.year - 1, d.month, d.day⟩
  else ⟨d.year - 1, 3, 1⟩

/-- `strftime('%y')`: two-digit zero-padded year. -/
def pad2 (n : Nat) : String :=
  if n < 10 then "0" ++ toString n else toString n

def strfY (y : Nat) : String := pad2 (y % 100)

def monthAbbr (m : Nat) : String :=
  match m with
  | 1 => "Jan" | 2 => "Feb" | 3 => "Mar" | 4 => "Apr" | 5 => "May" | 6 => "Jun"
  | 7 => "Jul" | 8 => "Aug" | 9 => "Sep" | 10 => "Oct" | 11 => "Nov" | 12 => "Dec"
  | _ => ""

/-- `strftime("%d %b %Y")`. -/
def fmtDate (d : PyDate) : String :=
  pad2 d.day ++ " " ++ monthAbbr d.month ++ " " ++ toString d.year

/-- `make_chapter_name`: seasonal chapter label with year-wrap handling. -/
def make_chapter_name (d : PyDate) : String :=
  match get_season d with
  | some 0 => "Winter '" ++ strfY (sub_year d).year ++ " - '" ++ strfY d.year
  | some 1 => "Spring '" ++ strfY d.year
  | some 2 => "Summer '" ++ strfY d.year
  | some 3 => "Autumn '" ++ strfY d.year
  | some 4 => "Winter '" ++ strfY d.year ++ " - '" ++ strfY (add_year d).year
  | _ => "Unknown '" ++ strfY d.year

/-- The claim's fixed day-month bucket table, written from the spec's words:
id 0 for Jan 1 – Mar 20, 1 for Mar 21 – Jun 20, 2 for Jun 21 – Sep 22,
3 for Sep 23 – Dec 20, 4 for Dec 21 – Dec 31 (boundaries inclusive). -/
def seasonSpecId (m d : Nat) : Nat :=
  if mdLE (m, d) (3, 20) then 0
  else if mdLE (m, d) (6, 20) then 1
  else if mdLE (m, d) (9, 22) then 2
  else if mdLE (m, d) (12, 20) then 3
  else 4

theorem get_season_year_irrel (y m d : Nat) :
    get_season ⟨y, m, d⟩ = get_season ⟨2000, m, d⟩ := rfl

theorem get_season_md :
    ∀ m : Nat, m < 13 → ∀ d : Nat, d < 32 → 1 ≤ m → 1 ≤ d →
      get_season ⟨2000, m, d⟩ = some (seasonSpecId m d) := by decide

theorem daysInMonth_le (y m : Nat) : daysInMonth y m ≤ 31 := by
  unfold daysInMonth
  split
  · split <;> omega
  · split <;> omega

/-- C1: season classification is total over valid calendar dates (Feb 29 of a
leap year included) and agrees with the fixed day-month table: it always
returns `some` id, and that id is the one given by the spec's bucket table,
hence exactly one bucket matches. -/
theorem c1_season_total (dt : PyDate) (h : validDate dt) :
    get_season dt = some (seasonSpecId dt.month dt.day) := by
  obtain ⟨y, m, d⟩ := dt
  obtain ⟨-, -, hm1, hm2, hd1, hd2⟩ := h
  dsimp only at hm1 hm2 hd1 hd2 ⊢
  have hd31 : d ≤ 31 := le_trans hd2 (daysInMonth_le y m)
  rw [get_season_year_irrel]
  exact get_season_md m (by omega) d (by omega) hm1 hd1

/-- Witness for C1 at Feb 29 of the leap year 2024. -/
theorem c1_season_total_witness :
    validDate ⟨2024, 2, 29⟩ ∧ get_season ⟨2024, 2, 29⟩ = some (seasonSpecId 2 29) :=
  ⟨by decide, c1_season_total ⟨2024, 2, 29⟩ (by decide)⟩

/-! ## Line splitting and joining -/

/-- Worker for Python `s.split("\n")`: emits every segment, including empty
leading/trailing ones. -/
def splitNLgo : Chars → Chars → List Chars
  | [], acc => [acc.reverse]
  | c :: rest, acc =>
    if c = '\n' then acc.reverse :: splitNLgo rest [] else splitNLgo rest (c :: acc)

/-- Python `s.split("\n")`. -/
def splitNL (s : Chars) : List Chars := splitNLgo s []

/-- The line-boundary characters of Python `str.splitlines()`: LF, CR, VT,
FF, FS, GS, RS, NEL, LINE SEPARATOR and PARAGRAPH SEPARATOR (the two-char
boundary `"\r\n"` is handled in `pySLgo`). -/
def isLineBoundary (c : Char) : Bool :=
  c = '\n' || c = '\r' || c = '\x0b' || c = '\x0c' || c = '\x1c' ||
    c = '\x1d' || c = '\x1e' || c = '\x85' || c = '\u2028' || c = '\u2029'

/-- Worker for Python `s.splitlines()`: every line-boundary character ends a
segment, `"\r\n"` counts as a single boundary, and a trailing empty segment
is not emitted (`"" → []`). -/
def pySLgo : Chars → Chars → List Chars
  | [], acc => if acc = [] then [] else [acc.reverse]
  | [c], acc => if isLineBoundary c then [acc.reverse] else [(c :: acc).reverse]
  | c :: d :: rest, acc =>
    if c = '\r' ∧ d = '\n' then acc.reverse :: pySLgo rest []
    else if isLineBoundary c then acc.reverse :: pySLgo (d :: rest) []
    else pySLgo (d :: rest) (c :: acc)

/-- Python `s.splitlines()`. -/
def pySplitlines (s : Chars) : List Chars := pySLgo s []

/-- Python `"\n".join(lines)`. -/
def joinNL : List Chars → Chars
  | [] => []
  | [l] => l
  | l :: l' :: rest => l ++ '\n' :: joinNL (l' :: rest)

/-- Fuel-driven core of `re.sub(r' {2,}', ' ', s)`: a maximal run of two or
more spaces becomes a single space; single spaces are untouched. -/
def collapseSpacesF : Nat → Chars → Chars
  | _, [] => []
  | 0, s => s
  | fuel + 1, c :: rest =>
    if c = ' ' ∧ rest.head? = some ' ' then
      ' ' :: collapseSpacesF fuel (rest.dropWhile (· = ' '))
    else
      c :: collapseSpacesF fuel rest

def collapseSpaces (s : Chars) : Chars := collapseSpacesF s.length s

theorem collapseSpacesF_irrel :
    ∀ f₁ : Nat, ∀ s : Chars, ∀ f₂ : Nat, s.length ≤ f₁ → s.length ≤ f₂ →
      collapseSpacesF f₁ s = collapseSpacesF f₂ s := by
  intro f₁
  induction f₁ with
  | zero =>
    intro s f₂ h₁ _
    have : s = [] := by
      cases s with
      | nil => rfl
      | cons c r => simp at h₁
    subst this
    cases f₂ <;> rfl
  | succ g ih =>
    intro s f₂ h₁ h₂
    cases s with
    | nil => cases f₂ <;> rfl
    | cons c rest =>
      cases f₂ with
      | zero => simp at h₂
      | succ g₂ =>
        simp only [collapseSpacesF]
        have hr : rest.length ≤ g := by simpa using h₁
        have hr₂ : rest.length ≤ g₂ := by simpa using h₂
        by_cases h : c = ' ' ∧ rest.head? = some ' '
        · simp only [if_pos h]
          have hd : (rest.dropWhile (· = ' ')).length ≤ rest.length :=
            (List.dropWhile_sublist _).length_le
          rw [ih _ g₂ (le_trans hd hr) (le_trans hd hr₂)]
        · simp only [if_neg h]
          rw [ih _ g₂ hr hr₂]

@[simp] theorem collapseSpaces_nil : collapseSpaces [] = [] := rfl

theorem collapseSpaces_cons (c : Char) (rest : Chars) :
    collapseSpaces (c :: rest) =
      if c = ' ' ∧ rest.head? = some ' ' then
        ' ' :: collapseSpaces (rest.dropWhile (· = ' '))
      else
        c :: collapseSpaces rest := by
  show collapseSpacesF (rest.length + 1) (c :: rest) = _
  simp only [collapseSpacesF]
  by_cases h : c = ' ' ∧ rest.head? = some ' '
  · simp only [if_pos h]
    rw [collapseSpacesF_irrel rest.length _ (rest.dropWhile (· = ' ')).length
      ((List.dropWhile_sublist _).length_le) le_rfl]
    rfl
  · simp only [if_neg h]
    rfl

/-! ## Word-wrap detection (`has_word_wrapping`) -/

/-- Non-blank lines: `[line for line in body.split("\n") if line.strip()]`. -/
def nonBlankLines (body : Chars) : List Chars :=
  (splitNL body).filter fun l => !(pyStrip l).isEmpty

/-- `line and line.rstrip()[-1].islower()` (ASCII lower-case model; on the
non-blank lines where this is used `rstrip` is never empty, so the default
of `getLastD` is never consulted). -/
def endsLower (l : Chars) : Bool :=
  !l.isEmpty && ((pyStripR l).getLastD ' ').isLower

def punctEnd : List Char := ['.', '!', '?', ',', ';', ':', '\'', '"']

/-- `line and line[-1] not in '.!?,;:\'"'`. -/
def midSentenceEnd (l : Chars) : Bool :=
  !l.isEmpty && !(punctEnd.contains (l.getLastD ' '))

/-- Exact-arithmetic translation of check 3 of `has_word_wrapping`:
`50 <= avg <= 85 and std_dev < 20` where `avg = s/n` and the population
variance is `Σ(len - avg)²/n`; clearing denominators (`n > 0`) gives the
integer conditions below. -/
def statsOk (sig : List Chars) : Bool :=
  let n : Int := sig.length
  let s : Int := ((sig.map List.length).sum : Nat)
  decide (50 * n ≤ s) && decide (s ≤ 85 * n) &&
    decide ((sig.map fun l => (n * (l.length : Int) - s) ^ 2).sum < 400 * n ^ 3)

/-- `has_word_wrapping`: at least 5 non-blank lines required; three
indicators (fractions compared with 0.4 as exact rationals: `a/n > 2/5` iff
`5a > 2n`); verdict is `indicators >= 2`.  (The code's `total_checks`
counter is dead: the verdict reads only `indicators`.) -/
def has_word_wrapping (body : Chars) : Bool :=
  let ne := nonBlankLines body
  if ne.length < 5 then false
  else
    let i1 : Nat := if 2 * ne.length < 5 * ne.countP endsLower then 1 else 0
    let sig := ne.filter fun l => 20 < l.length
    let i2 : Nat :=
      if !sig.isEmpty then
        (if 2 * sig.length < 5 * sig.countP midSentenceEnd then 1 else 0)
      else 0
    let i3 : Nat := if 3 ≤ sig.length then (if statsOk sig then 1 else 0) else 0
    decide (2 ≤ i1 + i2 + i3)

/-- The spec's reading of the detector (written from the claim's words): the
list of indicators actually evaluated — (a) always, (b) unless no line
exceeds 20 characters, (c) unless fewer than 3 such lines exist — all taken
over the non-blank lines. -/
def evaluatedIndicators (body : Chars) : List Bool :=
  let ne := nonBlankLines body
  let sig := ne.filter fun l => 20 < l.length
  [decide (2 * ne.length < 5 * ne.countP endsLower)] ++
    (if !sig.isEmpty then [decide (2 * sig.length < 5 * sig.countP midSentenceEnd)] else []) ++
    (if 3 ≤ sig.length then [statsOk sig] else [])

/-- The spec's verdict: fewer than 5 non-blank lines → not wrapped; else
true iff at least 2 of the evaluated indicators are true. -/
def spec_wrap_verdict (body : Chars) : Bool :=
  decide (5 ≤ (nonBlankLines body).length) &&
    decide (2 ≤ (evaluatedIndicators body).count true)

/-- C2: the detector equals the spec's skip-aware two-of-evaluated rule. -/
theorem c2_wrap_detector (body : Chars) :
    has_word_wrapping body = spec_wrap_verdict body := by
  unfold has_word_wrapping spec_wrap_verdict evaluatedIndicators
  dsimp only
  generalize nonBlankLines body = ne
  generalize List.filter (fun l => decide (20 < List.length l)) ne = sig
  by_cases h5 : ne.length < 5
  · have h5' : ¬5 ≤ ne.length := by omega
    simp [h5, h5']
  · have h5' : 5 ≤ ne.length := by omega
    simp only [if_neg h5]
    by_cases hA : 2 * ne.length < 5 * ne.countP endsLower <;>
      by_cases hB : 2 * sig.length < 5 * sig.countP midSentenceEnd <;>
        by_cases h3 : 3 ≤ sig.length <;>
          cases hE : sig.isEmpty <;>
            cases hC : statsOk sig <;>
              simp [hA, hB, h3, hE, hC, h5', List.count]

/-! ## Body normalization (`clean_message` and helpers) -/

/-- The `"\n"` pattern. -/
def nlPat : Chars := ['\n']

/-- The `"\n\n"` pattern. -/
def nnPat : Chars := ['\n', '\n']

/-- The `"\n\n\n"` pattern. -/
def n3Pat : Chars := ['\n', '\n', '\n']

/-- The `"\n\n\n\n"` pattern. -/
def n4Pat : Chars := ['\n', '\n', '\n', '\n']

/-- The `"<!PARAGRAPH!>"` sentinel. -/
def sentinel : Chars :=
  ['<', '!', 'P', 'A', 'R', 'A', 'G', 'R', 'A', 'P', 'H', '!', '>']

/-- The `"<br>\n"` break marker. -/
def brNl : Chars := ['<', 'b', 'r', '>', '\n']

/-- The `"<br>\n<br>\n"` paragraph marker. -/
def brBr : Chars := ['<', 'b', 'r', '>', '\n', '<', 'b', 'r', '>', '\n']

/-- Lines 332–333 of `clean_message`: one pass replacing `"\n\n\n\n"` with
`"\n\n"`, then one pass replacing `"\n\n\n"` with `"\n\n"`. -/
def normalize_breaks (s : Chars) : Chars :=
  pyReplace n3Pat nnPat (pyReplace n4Pat nnPat s)

/-- The word-wrapped rendering branch (lines 338–349): protect `"\n\n"` with
the sentinel, turn each remaining `"\n"` into a space, restore `"\n\n"`,
collapse space runs, then render `"\n\n"` as `"<br>\n<br>\n"`. -/
def render_wrapped (s : Chars) : Chars :=
  pyReplace nnPat brBr
    (collapseSpaces
      (pyReplace sentinel nnPat
        (pyReplace nlPat [' ']
          (pyReplace nnPat sentinel s))))

/-- The plain rendering branch (lines 350–355): protect `"\n\n"`, render
each remaining `"\n"` as `"<br>\n"`, render the sentinel as
`"<br>\n<br>\n"`. -/
def render_plain (s : Chars) : Chars :=
  pyReplace sentinel brBr
    (pyReplace nlPat brNl
      (pyReplace nnPat sentinel s))

/-- `is_date`: blank strings are rejected up front; the call into dateutil's
fuzzy `parse` (an external library) is modelled by the oracle `ido`, with
parse failure folded into `false`. -/
def is_date (ido : Chars → Bool) (s : Chars) : Bool :=
  if (pyStrip s).isEmpty then false else ido s

/-- `lines[-1].startswith("----")`. -/
def startsDashes (l : Chars) : Bool :=
  ['-', '-', '-', '-'].isPrefixOf l

/-- Replace the final line of a nonempty line list by the empty line
(`lines[-1] = ""`). -/
def blankLast (ls : List Chars) : List Chars := ls.dropLast ++ [[]]

/-- Lines 358–366 of `clean_message`: blank the last line if it starts with
`"----"`; then blank the (possibly already blanked) last line if it fuzzily
parses as a date. -/
def trailing_cleanup (ido : Chars → Bool) (ls : List Chars) : List Chars :=
  if ls.isEmpty then ls
  else
    let ls1 := if startsDashes (ls.getLastD []) then blankLast ls else ls
    if is_date ido (ls1.getLastD []) then blankLast ls1 else ls1

/-- `clean_message`: empty/None body gives `""`; otherwise collapse break
runs, classify, render by branch, then apply the trailing cleanup to the
split lines and re-join. -/
def clean_message (ido : Chars → Bool) (body : Chars) : Chars :=
  if body = [] then []
  else
    let cleaned := normalize_breaks body
    let rendered :=
      if has_word_wrapping cleaned then render_wrapped cleaned
      else render_plain cleaned
    joinNL (trailing_cleanup ido (pySplitlines rendered))

/-- `is_empty_content`: strip the three break-marker spellings, then strip
whitespace; empty means no characters remain. -/
def is_empty_content (content : Chars) : Bool :=
  (pyStrip
    (pyReplace ('<' :: 'b' :: 'r' :: [' ', '/', '>']) []
      (pyReplace ['<', 'b', 'r', '/', '>'] []
        (pyReplace ['<', 'b', 'r', '>'] [] content)))).isEmpty

/-! ## Trailing cleanup: C5 and C10 -/

theorem getLastD_append_single (xs : List Chars) (a d : Chars) :
    (xs ++ [a]).getLastD d = a := by
  induction xs generalizing d with
  | nil => rfl
  | cons x xs ih =>
    rw [List.cons_append, List.getLastD_cons]
    exact ih x

@[simp] theorem is_date_nil (ido : Chars → Bool) : is_date ido [] = false := rfl

theorem blankLast_getLastD (ls : List Chars) (d : Chars) :
    (blankLast ls).getLastD d = [] :=
  getLastD_append_single _ _ _

/-- C5: trailing cleanup of `clean_message` on the rendered line list.  If
the last line starts with `"----"` it is blanked (and, since a blank line
never parses as a date, nothing further happens); otherwise, if the last
line fuzzily parses as a date it is blanked; otherwise (ordinary prose) the
lines are unchanged.  Only the final line is ever touched. -/
theorem c5_trailing_rules (ido : Chars → Bool) (ls : List Chars) (h : ls ≠ []) :
    (startsDashes (ls.getLastD []) = true →
      trailing_cleanup ido ls = blankLast ls) ∧
    (startsDashes (ls.getLastD []) = false → is_date ido (ls.getLastD []) = true →
      trailing_cleanup ido ls = blankLast ls) ∧
    (startsDashes (ls.getLastD []) = false → is_date ido (ls.getLastD []) = false →
      trailing_cleanup ido ls = ls) := by
  have hne : ¬ls.isEmpty = true := by simpa [List.isEmpty_iff] using h
  refine ⟨fun hd => ?_, fun hd hdt => ?_, fun hd hdt => ?_⟩
  · unfold trailing_cleanup
    dsimp only
    rw [if_neg hne, if_pos hd, blankLast_getLastD]
    rw [if_neg (by simp)]
  · unfold trailing_cleanup
    dsimp only
    have hd' : ¬startsDashes (ls.getLastD []) = true := by rw [hd]; decide
    rw [if_neg hne, if_neg hd', if_pos hdt]
  · unfold trailing_cleanup
    dsimp only
    have hd' : ¬startsDashes (ls.getLastD []) = true := by rw [hd]; decide
    have hdt' : ¬is_date ido (ls.getLastD []) = true := by rw [hdt]; decide
    rw [if_neg hne, if_neg hd', if_neg hdt']

/-- Witness for C5: a two-line body ending in prose is unchanged. -/
theorem c5_trailing_rules_witness :
    trailing_cleanup (fun _ => false) [['h', 'i'], ['y', 'o']] =
      [['h', 'i'], ['y', 'o']] :=
  (c5_trailing_rules (fun _ => false) [['h', 'i'], ['y', 'o']]
    (by decide)).2.2 (by decide) (by decide)

/-- C10: frame property of trailing cleanup.  The line count is preserved,
all lines but the last are unchanged, the final line is at most replaced by
the empty line (never deleted), and the two blanking rules never both take
effect (after the separator rule blanks the last line, the date rule sees a
blank line, which never parses as a date). -/
theorem c10_trailing_frame (ido : Chars → Bool) (ls : List Chars) (h : ls ≠ []) :
    (trailing_cleanup ido ls).length = ls.length ∧
    (trailing_cleanup ido ls).dropLast = ls.dropLast ∧
    (trailing_cleanup ido ls = ls ∨ trailing_cleanup ido ls = blankLast ls) ∧
    (startsDashes (ls.getLastD []) = true →
      is_date ido ((blankLast ls).getLastD []) = false) := by
  have hne : ¬ls.isEmpty = true := by simpa [List.isEmpty_iff] using h
  have hbl : (blankLast ls).length = ls.length := by
    unfold blankLast
    rw [List.length_append, List.length_dropLast]
    have : 1 ≤ ls.length := List.length_pos.mpr h
    simp
    omega
  have hbd : (blankLast ls).dropLast = ls.dropLast := by
    unfold blankLast
    exact List.dropLast_concat ..
  have hshape : trailing_cleanup ido ls = ls ∨ trailing_cleanup ido ls = blankLast ls := by
    unfold trailing_cleanup
    dsimp only
    by_cases hd : startsDashes (ls.getLastD []) = true
    · right
      rw [if_neg hne, if_pos hd, blankLast_getLastD]
      rw [if_neg (by simp)]
    · by_cases hdt : is_date ido (ls.getLastD []) = true
      · right
        rw [if_neg hne, if_neg hd, if_pos hdt]
      · left
        rw [if_neg hne, if_neg hd, if_neg hdt]
  refine ⟨?_, ?_, hshape, fun _ => by rw [blankLast_getLastD]; exact is_date_nil ido⟩
  · rcases hshape with h' | h' <;> rw [h']
    exact hbl
  · rcases hshape with h' | h' <;> rw [h']
    exact hbd

/-- Witness for C10 on a concrete two-line list whose last line is a
signature separator. -/
theorem c10_trailing_frame_witness :
    (trailing_cleanup (fun _ => true) [['a'], ['-', '-', '-', '-', '-']]).length = 2 ∧
    (trailing_cleanup (fun _ => true) [['a'], ['-', '-', '-', '-', '-']]).dropLast = [['a']] := by
  have h := c10_trailing_frame (fun _ => true) [['a'], ['-', '-', '-', '-', '-']] (by decide)
  exact ⟨h.1, h.2.1⟩

/-! ## Reply-fragment selection: C4 -/

/-- A fragment as exposed by the external `EmailReplyParser` collaborator. -/
structure Fragment where
  content : Chars
  quoted : Bool
  signature : Bool
  hidden : Bool
deriving DecidableEq

/-- `not fragment.quoted and not fragment.signature and not fragment.hidden`. -/
def fragOk (f : Fragment) : Bool :=
  !f.quoted && !f.signature && !f.hidden

/-- Lines 440–462 of `build_book`: the segmentation result is `none` when
the external parser raises, otherwise the ordered fragment list.  The loop
assigns `body_content` from the first qualifying fragment and breaks; the
`if not body_content` fallback then fires whenever `body_content` is the
empty string — both when no qualifying fragment exists and when the first
qualifying fragment's content is empty. -/
def select_body (raw : Chars) (res : Option (List Fragment)) : Chars :=
  match res with
  | none => raw
  | some [] => raw
  | some (f0 :: rest) =>
    let bc :=
      match (f0 :: rest).find? fragOk with
      | some f => f.content
      | none => []
    if bc = [] then f0.content else bc

/-- The claim's selector, written from its words: content of the first
fragment that is not quoted, not signature, not hidden; if no such fragment
exists, the very first fragment's content; zero fragments or a raised error
give the raw body. -/
def spec_select_claimed (raw : Chars) (res : Option (List Fragment)) : Chars :=
  match res with
  | none => raw
  | some [] => raw
  | some (f0 :: rest) =>
    match (f0 :: rest).find? fragOk with
    | some f => f.content
    | none => f0.content

/-- The amended selector: as claimed, except that a first qualifying
fragment whose content is empty also falls back to the very first
fragment's content. -/
def spec_select_amended (raw : Chars) (res : Option (List Fragment)) : Chars :=
  match res with
  | none => raw
  | some [] => raw
  | some (f0 :: rest) =>
    match (f0 :: rest).find? fragOk with
    | some f => if f.content = [] then f0.content else f.content
    | none => f0.content

/-- Counterexample to C4 as stated: fragments `[quoted "x", fresh ""]`.
The first non-quoted/non-signature/non-hidden fragment is the second one,
whose content is empty, so the claim demands `""`; the code's falsiness
fallback returns the first (quoted) fragment's content `"x"` instead. -/
theorem c4_selector_cex :
    select_body ['r']
        (some [⟨['x'], true, false, false⟩, ⟨[], false, false, false⟩]) = ['x'] ∧
    spec_select_claimed ['r']
        (some [⟨['x'], true, false, false⟩, ⟨[], false, false, false⟩]) = [] ∧
    (['x'] : Chars) ≠ [] := by
  refine ⟨by decide, by decide, by decide⟩

/-- C4 (amended): the selector returns the first qualifying fragment's
content when that content is nonempty; otherwise (no qualifying fragment,
or its content empty) the very first fragment's content; zero fragments or
a segmentation error give the raw body unchanged. -/
theorem c4_selector_amended (raw : Chars) (res : Option (List Fragment)) :
    select_body raw res = spec_select_amended raw res := by
  unfold select_body spec_select_amended
  match res with
  | none => rfl
  | some [] => rfl
  | some (f0 :: rest) =>
    cases hf : (f0 :: rest).find? fragOk with
    | none => simp [hf]
    | some f =>
      by_cases hc : f.content = []
      · simp [hf, hc]
      · simp [hf, hc]

/-! ## The per-message pipeline and chapter aggregation -/

/-- A raw message as handed to the core by the mailbox collaborator
(sender and subject already decoded — that decoding is external). -/
structure RawMsg where
  sender : String
  dateHeader : Option String
  subject : String
  body : Chars

/-- A processed message (the `Message` class). -/
structure NormMsg where
  sender : String
  date : String
  subject : String
  body : Chars
deriving DecidableEq

/-- A chapter: a name and its messages in insertion order. -/
structure Chapter where
  name : String
  messages : List NormMsg
deriving DecidableEq

/-- Lines 422–434 of `build_book`: a missing or empty `Date` header, or a
parse failure of dateutil's `parser.parse` (modelled by the oracle `pd`
returning `none`), yields the epoch date and the `"Unknown Date"` display
string. -/
def resolve_email_date (pd : String → Option PyDate) (hdr : Option String) :
    PyDate × String :=
  match hdr with
  | none => (⟨1970, 1, 1⟩, "Unknown Date")
  | some s =>
    if s = "" then (⟨1970, 1, 1⟩, "Unknown Date")
    else
      match pd s with
      | some d => (d, fmtDate d)
      | none => (⟨1970, 1, 1⟩, "Unknown Date")

/-- Body selection step of `build_book`: an empty body skips the reply
parser; otherwise the fragment selector runs on the segmentation result
(`fo`, `none` modelling a raised exception). -/
def selected_body (fo : Chars → Option (List Fragment)) (m : RawMsg) : Chars :=
  if m.body = [] then [] else select_body m.body (fo m.body)

/-- One iteration of `build_book`'s message loop, up to the chapter search:
`none` means the message is skipped (empty body after cleaning), `some`
carries the chapter label and the processed message. -/
def processOne (pd : String → Option PyDate) (fo : Chars → Option (List Fragment))
    (ido : Chars → Bool) (m : RawMsg) : Option (String × NormMsg) :=
  let ed := resolve_email_date pd m.dateHeader
  let p_body := clean_message ido (selected_body fo m)
  if is_empty_content p_body then none
  else some (make_chapter_name ed.1, ⟨m.sender, ed.2, m.subject, p_body⟩)

/-- Lines 476–486 of `build_book`: linear scan of the chapter list for the
first chapter with the given name, appending the message there, else a new
chapter at the end. -/
def addToChapters : List Chapter → String → NormMsg → List Chapter
  | [], name, m => [⟨name, [m]⟩]
  | ch :: rest, name, m =>
    if ch.name = name then ⟨ch.name, ch.messages ++ [m]⟩ :: rest
    else ch :: addToChapters rest name m

/-- Pure aggregation of an ordered (label, message) stream into chapters. -/
def aggregate (pairs : List (String × NormMsg)) : List Chapter :=
  pairs.foldl (fun chs p => addToChapters chs p.1 p.2) []

/-- The whole message loop of `build_book` (the per-message `try/except`
never fires in the model: every modelled step is total). -/
def build_chapters (pd : String → Option PyDate) (fo : Chars → Option (List Fragment))
    (ido : Chars → Bool) (msgs : List RawMsg) : List Chapter :=
  msgs.foldl
    (fun chs m =>
      match processOne pd fo ido m with
      | none => chs
      | some p => addToChapters chs p.1 p.2) []

/-- One step of first-seen deduplication. -/
def fsStep (acc : List String) (n : String) : List String :=
  if n ∈ acc then acc else acc ++ [n]

/-- The distinct labels of a stream in first-seen order. -/
def firstSeen (l : List String) : List String := l.foldl fsStep []

theorem mem_foldl_fsStep :
    ∀ (l : List String) (acc : List String) (x : String),
      x ∈ l.foldl fsStep acc ↔ x ∈ acc ∨ x ∈ l := by
  intro l
  induction l with
  | nil => simp
  | cons a l ih =>
    intro acc x
    rw [List.foldl_cons, ih]
    unfold fsStep
    by_cases h : a ∈ acc
    · simp only [if_pos h, List.mem_cons]
      constructor
      · rintro (hx | hx)
        · exact Or.inl hx
        · exact Or.inr (Or.inr hx)
      · rintro (hx | hx | hx)
        · exact Or.inl hx
        · exact Or.inl (hx ▸ h)
        · exact Or.inr hx
    · simp only [if_neg h, List.mem_append, List.mem_singleton, List.mem_cons]
      tauto

theorem nodup_foldl_fsStep :
    ∀ (l : List String) (acc : List String), acc.Nodup → (l.foldl fsStep acc).Nodup := by
  intro l
  induction l with
  | nil => simp
  | cons a l ih =>
    intro acc hacc
    rw [List.foldl_cons]
    apply ih
    unfold fsStep
    by_cases h : a ∈ acc
    · simpa [h]
    · rw [if_neg h, List.nodup_append]
      refine ⟨hacc, List.nodup_singleton a, ?_⟩
      intro x hx hx'
      simp only [List.mem_singleton] at hx'
      subst hx'
      exact h hx

theorem firstSeen_nodup (l : List String) : (firstSeen l).Nodup :=
  nodup_foldl_fsStep l [] List.nodup_nil

theorem mem_firstSeen (l : List String) (x : String) : x ∈ firstSeen l ↔ x ∈ l := by
  rw [firstSeen, mem_foldl_fsStep]
  simp

theorem firstSeen_snoc (l : List String) (n : String) :
    firstSeen (l ++ [n]) = fsStep (firstSeen l) n := by
  unfold firstSeen
  rw [List.foldl_append]
  rfl

theorem addToChapters_no_match (chs : List Chapter) (n : String) (m : NormMsg)
    (h : ∀ ch ∈ chs, ch.name ≠ n) :
    addToChapters chs n m = chs ++ [⟨n, [m]⟩] := by
  induction chs with
  | nil => rfl
  | cons ch rest ih =>
    rw [addToChapters, if_neg (h ch (List.mem_cons_self ch rest))]
    rw [ih fun c hc => h c (List.mem_cons_of_mem ch hc)]
    rfl

theorem map_update_id (rest : List Chapter) (n : String) (m : NormMsg)
    (h : ∀ ch ∈ rest, ch.name ≠ n) :
    rest.map (fun ch => if ch.name = n then ⟨ch.name, ch.messages ++ [m]⟩ else ch) = rest := by
  induction rest with
  | nil => rfl
  | cons ch rest ih =>
    rw [List.map_cons, if_neg (h ch (List.mem_cons_self ch rest))]
    rw [ih fun c hc => h c (List.mem_cons_of_mem ch hc)]

theorem addToChapters_match (chs : List Chapter) (n : String) (m : NormMsg)
    (hnd : (chs.map Chapter.name).Nodup) (hmem : n ∈ chs.map Chapter.name) :
    addToChapters chs n m =
      chs.map (fun ch => if ch.name = n then ⟨ch.name, ch.messages ++ [m]⟩ else ch) := by
  induction chs with
  | nil => simp at hmem
  | cons ch rest ih =>
    rw [List.map_cons] at hnd hmem
    by_cases hc : ch.name = n
    · rw [addToChapters, if_pos hc, List.map_cons, if_pos hc]
      have hrest : ∀ c ∈ rest, c.name ≠ n := by
        intro c hcmem hcn
        have : ch.name ∈ rest.map Chapter.name := by
          rw [hc, ← hcn]
          exact List.mem_map_of_mem Chapter.name hcmem
        exact (List.nodup_cons.mp hnd).1 this
      rw [map_update_id rest n m hrest]
    · rw [addToChapters, if_neg hc, List.map_cons, if_neg hc]
      have hmem' : n ∈ rest.map Chapter.name := by
        rcases List.mem_cons.mp hmem with h' | h'
        · exact absurd h'.symm hc
        · exact h'
      rw [ih (List.nodup_cons.mp hnd).2 hmem']

theorem aggregate_invariant (pairs : List (String × NormMsg)) :
    (aggregate pairs).map Chapter.name = firstSeen (pairs.map Prod.fst) ∧
    ∀ ch ∈ aggregate pairs,
      ch.messages = (pairs.filter fun q => q.1 == ch.name).map Prod.snd := by
  induction pairs using List.reverseRecOn with
  | nil => exact ⟨rfl, by simp [aggregate]⟩
  | append_singleton ps p ih =>
    obtain ⟨hnames, hmsgs⟩ := ih
    have hagg : aggregate (ps ++ [p]) = addToChapters (aggregate ps) p.1 p.2 := by
      unfold aggregate
      rw [List.foldl_append]
      rfl
    have hnd : ((aggregate ps).map Chapter.name).Nodup := by
      rw [hnames]; exact firstSeen_nodup _
    have hfs : firstSeen ((ps ++ [p]).map Prod.fst) =
        fsStep (firstSeen (ps.map Prod.fst)) p.1 := by
      rw [List.map_append]
      exact firstSeen_snoc _ _
    by_cases hmem : p.1 ∈ (aggregate ps).map Chapter.name
    · have hmem' : p.1 ∈ firstSeen (ps.map Prod.fst) := hnames ▸ hmem
      constructor
      · rw [hagg, addToChapters_match _ _ _ hnd hmem, hfs, fsStep, if_pos hmem',
          ← hnames, List.map_map]
        apply List.map_congr_left
        intro ch _
        by_cases hc : ch.name = p.1 <;> simp [hc]
      · intro ch' hch'
        rw [hagg, addToChapters_match _ _ _ hnd hmem] at hch'
        obtain ⟨ch, hch, rfl⟩ := List.mem_map.mp hch'
        rw [List.filter_append, List.map_append]
        by_cases hc : ch.name = p.1
        · simp only [if_pos hc]
          have hfp : List.filter (fun q => q.1 == ch.name) [p] = [p] := by
            simp [hc]
          rw [hfp, ← hmsgs ch hch]
          rfl
        · simp only [if_neg hc]
          have hfp : List.filter (fun q => q.1 == ch.name) [p] = [] := by
            have hne : ¬(p.1 = ch.name) := fun hcon => hc hcon.symm
            simp [hne]
          rw [hfp, ← hmsgs ch hch]
          simp
    · have hmem' : p.1 ∉ firstSeen (ps.map Prod.fst) := hnames ▸ hmem
      have hno : ∀ ch ∈ aggregate ps, ch.name ≠ p.1 := by
        intro ch hch hcon
        exact hmem (hcon ▸ List.mem_map_of_mem Chapter.name hch)
      constructor
      · rw [hagg, addToChapters_no_match _ _ _ hno, hfs, fsStep, if_neg hmem',
          List.map_append, hnames]
        rfl
      · intro ch' hch'
        rw [hagg, addToChapters_no_match _ _ _ hno] at hch'
        rw [List.filter_append, List.map_append]
        rcases List.mem_append.mp hch' with hch | hch
        · have hcn : ch'.name ≠ p.1 := hno ch' hch
          have hfp : List.filter (fun q => q.1 == ch'.name) [p] = [] := by
            have hne : ¬(p.1 = ch'.name) := fun hcon => hcn hcon.symm
            simp [hne]
          rw [hfp, ← hmsgs ch' hch]
          simp
        · have hch2 : ch' = ⟨p.1, [p.2]⟩ := by simpa using hch
          subst hch2
          have hnotin : p.1 ∉ ps.map Prod.fst := fun hin =>
            hmem' ((mem_firstSeen _ _).mpr hin)
          have hfil : List.filter
              (fun q => q.1 == (⟨p.1, [p.2]⟩ : Chapter).name) ps = [] := by
            rw [List.filter_eq_nil_iff]
            intro q hq hcon
            apply hnotin
            have hq1 : q.1 = p.1 := by simpa using hcon
            exact hq1 ▸ List.mem_map_of_mem Prod.fst hq
          rw [hfil]
          simp

/-- C7: after aggregating any ordered (label, message) stream, chapter names
are pairwise distinct and listed in first-seen order, and each chapter holds
exactly the stream's messages with its label, in stream order; the output is
exactly the fold of the insertion step, so nothing is merged, re-sorted or
deduplicated afterwards. -/
theorem c7_aggregation (pairs : List (String × NormMsg)) :
    (aggregate pairs).map Chapter.name = firstSeen (pairs.map Prod.fst) ∧
    ((aggregate pairs).map Chapter.name).Nodup ∧
    ∀ ch ∈ aggregate pairs,
      ch.messages = (pairs.filter fun q => q.1 == ch.name).map Prod.snd := by
  obtain ⟨h1, h2⟩ := aggregate_invariant pairs
  exact ⟨h1, h1 ▸ firstSeen_nodup _, h2⟩

theorem foldl_filterMap_fusion (pd : String → Option PyDate)
    (fo : Chars → Option (List Fragment)) (ido : Chars → Bool) :
    ∀ (msgs : List RawMsg) (chs : List Chapter),
      msgs.foldl
        (fun chs m =>
          match processOne pd fo ido m with
          | none => chs
          | some p => addToChapters chs p.1 p.2) chs =
      (msgs.filterMap (processOne pd fo ido)).foldl
        (fun chs p => addToChapters chs p.1 p.2) chs := by
  intro msgs
  induction msgs with
  | nil => intro chs; rfl
  | cons m msgs ih =>
    intro chs
    rw [List.foldl_cons, List.filterMap_cons]
    cases hm : processOne pd fo ido m with
    | none => rw [ih]
    | some p => rw [List.foldl_cons, ih]

/-- C6: `build_book`'s chapter construction equals pure aggregation of the
stream filtered by the empty-content test, and a message is skipped
(`processOne = none`) precisely when its body is empty content *after*
`clean_message` — so the exclusion decision is taken on the normalized body
and only there, and excluded messages appear in no chapter. -/
theorem c6_empty_exclusion (pd : String → Option PyDate)
    (fo : Chars → Option (List Fragment)) (ido : Chars → Bool) (msgs : List RawMsg) :
    build_chapters pd fo ido msgs =
      aggregate (msgs.filterMap (processOne pd fo ido)) ∧
    ∀ m : RawMsg,
      processOne pd fo ido m = none ↔
        is_empty_content (clean_message ido (selected_body fo m)) = true := by
  constructor
  · unfold build_chapters aggregate
    exact foldl_filterMap_fusion pd fo ido msgs []
  · intro m
    unfold processOne
    dsimp only
    by_cases he : is_empty_content (clean_message ido (selected_body fo m)) = true
    · simp [he]
    · simp [he]

/-- C8: an absent, empty or unparseable `Date` header resolves to the epoch
date (Jan 1, 1970) with the `"Unknown Date"` display string; the epoch date
classifies into the winter bucket 0 with chapter label `Winter '69 - '70`;
and a message is only ever skipped because of empty body content, never on
account of its date. -/
theorem c8_epoch_fallback (pd : String → Option PyDate) (hdr : Option String)
    (h : hdr = none ∨ hdr = some "" ∨ ∃ s, hdr = some s ∧ pd s = none) :
    resolve_email_date pd hdr = (⟨1970, 1, 1⟩, "Unknown Date") ∧
    get_season ⟨1970, 1, 1⟩ = some 0 ∧
    make_chapter_name ⟨1970, 1, 1⟩ = "Winter '69 - '70" ∧
    ∀ (fo : Chars → Option (List Fragment)) (ido : Chars → Bool) (m : RawMsg),
      processOne pd fo ido m = none →
        is_empty_content (clean_message ido (selected_body fo m)) = true := by
  refine ⟨?_, by decide, by decide, ?_⟩
  · rcases h with rfl | rfl | ⟨s, rfl, hps⟩
    · rfl
    · rfl
    · unfold resolve_email_date
      dsimp only
      by_cases hs : s = ""
      · rw [if_pos hs]
      · rw [if_neg hs, hps]
  · intro fo ido m hskip
    unfold processOne at hskip
    dsimp only at hskip
    by_cases he : is_empty_content (clean_message ido (selected_body fo m)) = true
    · exact he
    · simp [he] at hskip

/-- Witness for C8: a missing header resolves to the epoch. -/
theorem c8_epoch_fallback_witness :
    resolve_email_date (fun _ => none) none = (⟨1970, 1, 1⟩, "Unknown Date") :=
  (c8_epoch_fallback (fun _ => none) none (Or.inl rfl)).1

/-! ## Break-run collapsing: C3 -/

/-- A run of `k` line breaks. -/
def nlRun (k : Nat) : Chars := List.replicate k '\n'

/-- `l` contains no line break. -/
def noNl (l : Chars) : Bool := decide ('\n' ∉ l)

/-- Render a body from its run/block decomposition: each segment contributes
a run of line breaks followed by a break-free block. -/
def render : List (Nat × Chars) → Chars
  | [] => []
  | (k, b) :: rest => nlRun k ++ (b ++ render rest)

/-- Well-formed decomposition: blocks are break-free, and every block except
the last is nonempty (so distinct runs never merge and each run is maximal
when interior run lengths are positive). -/
def segsOk : List (Nat × Chars) → Bool
  | [] => true
  | (_, b) :: rest => noNl b && (rest.isEmpty || !b.isEmpty) && segsOk rest

theorem pyReplace_match (pat repl t : Chars) (hpat : pat ≠ []) :
    pyReplace pat repl (pat ++ t) = repl ++ pyReplace pat repl t := by
  obtain ⟨c, pat', rfl⟩ : ∃ c pat', pat = c :: pat' := by
    cases pat with
    | nil => exact absurd rfl hpat
    | cons c p => exact ⟨c, p, rfl⟩
  rw [List.cons_append, pyReplace_cons]
  have hpre : (c :: pat').isPrefixOf (c :: (pat' ++ t)) = true := by
    rw [List.isPrefixOf_iff_prefix]
    exact ⟨t, by simp⟩
  rw [if_pos ⟨hpre, hpat⟩]
  have hlen : (c :: pat').length - 1 = pat'.length := by simp
  rw [hlen, List.drop_left]

theorem pyReplace_skip (pat repl : Chars) (c : Char) (rest : Chars)
    (h : pat.isPrefixOf (c :: rest) = false) :
    pyReplace pat repl (c :: rest) = c :: pyReplace pat repl rest := by
  rw [pyReplace_cons, if_neg]
  rintro ⟨hp, -⟩
  rw [h] at hp
  exact Bool.false_ne_true hp

theorem nlRun_not_pre (q : Nat) (hq : 1 ≤ q) (c : Char) (hc : c ≠ '\n') (rest : Chars) :
    (nlRun q).isPrefixOf (c :: rest) = false := by
  obtain ⟨q', rfl⟩ : ∃ q', q = q' + 1 := ⟨q - 1, by omega⟩
  rw [nlRun, List.replicate_succ, List.isPrefixOf_cons₂]
  have hne : ('\n' == c) = false := by
    rw [beq_eq_false_iff_ne]
    exact fun h => hc h.symm
  rw [hne, Bool.false_and]

theorem nlRun_not_pre_short (q k : Nat) (hk : k < q) :
    (nlRun q).isPrefixOf (nlRun k) = false := by
  rw [nlRun, nlRun, List.isPrefixOf_replicate]
  have hd : decide ((List.replicate q '\n').length ≤ k) = false := by
    simp only [List.length_replicate]
    exact decide_eq_false (by omega)
  rw [hd, Bool.false_and]

theorem nlRun_not_pre_mid (j : Nat) :
    ∀ (q : Nat), j < q → ∀ (c : Char), c ≠ '\n' → ∀ v : Chars,
      (nlRun q).isPrefixOf (nlRun j ++ (c :: v)) = false := by
  induction j with
  | zero =>
    intro q hq c hc v
    rw [show nlRun 0 = [] from rfl, List.nil_append]
    exact nlRun_not_pre q (by omega) c hc v
  | succ j ih =>
    intro q hq c hc v
    obtain ⟨q', rfl⟩ : ∃ q', q = q' + 1 := ⟨q - 1, by omega⟩
    rw [nlRun, nlRun, List.replicate_succ, List.replicate_succ, List.cons_append,
      List.isPrefixOf_cons₂_self]
    exact ih q' (by omega) c hc v

theorem pyReplace_nlRun_block (q : Nat) (hq : 1 ≤ q) (repl : Chars) :
    ∀ (b s : Chars), '\n' ∉ b →
      pyReplace (nlRun q) repl (b ++ s) = b ++ pyReplace (nlRun q) repl s := by
  intro b
  induction b with
  | nil => intro s _; simp
  | cons c b ih =>
    intro s hnb
    have hc : c ≠ '\n' := fun h => hnb (h ▸ List.mem_cons_self c b)
    rw [List.cons_append, pyReplace_skip _ _ _ _ (nlRun_not_pre q hq c hc _)]
    rw [ih s fun h => hnb (List.mem_cons_of_mem c h)]
    rfl

/-- Core run lemma: one `replace` pass with an all-newline pattern of length
`q` and replacement `"\n\n"` turns a maximal run of `k` breaks into
`2·(k/q) + k%q` breaks, and leaves the following break-free block and the
rest of the scan untouched. -/
theorem pyReplace_nlRun_run (q : Nat) (hq : 1 ≤ q) :
    ∀ (k : Nat) (b s : Chars), '\n' ∉ b → (b = [] → s = []) →
      pyReplace (nlRun q) nnPat (nlRun k ++ (b ++ s)) =
        nlRun (2 * (k / q) + k % q) ++ (b ++ pyReplace (nlRun q) nnPat s) := by
  intro k
  induction k using Nat.strong_induction_on with
  | _ k ih =>
    intro b s hnb hbs
    by_cases hkq : q ≤ k
    · have hsplit : nlRun k = nlRun q ++ nlRun (k - q) := by
        rw [nlRun, nlRun, nlRun, ← List.replicate_add]
        congr 1
        omega
      have hqne : nlRun q ≠ [] := by
        rw [nlRun]
        simp only [ne_eq, List.replicate_eq_nil_iff]
        omega
      rw [hsplit, List.append_assoc, pyReplace_match _ _ _ hqne]
      rw [ih (k - q) (by omega) b s hnb hbs]
      rw [show nnPat = nlRun 2 from rfl, ← List.append_assoc, nlRun, nlRun, nlRun,
        ← List.replicate_add]
      have h1 : k / q = (k - q) / q + 1 := Nat.div_eq_sub_div (by omega) hkq
      have h2 : k % q = (k - q) % q := (Nat.mod_eq_sub_mod hkq).symm ▸ rfl
      have h2' : k % q = (k - q) % q := Nat.mod_eq_sub_mod hkq
      have harith : 2 + (2 * ((k - q) / q) + (k - q) % q) = 2 * (k / q) + k % q := by
        omega
      rw [harith]
      rfl
    · cases k with
      | zero =>
        rw [show nlRun 0 = [] from rfl, List.nil_append,
          pyReplace_nlRun_block q hq nnPat b s hnb,
          show 2 * (0 / q) + 0 % q = 0 by simp,
          show nlRun 0 = [] from rfl, List.nil_append]
      | succ j =>
        have hnm : (nlRun q).isPrefixOf ('\n' :: (nlRun j ++ (b ++ s))) = false := by
          cases b with
          | nil =>
            rw [hbs rfl]
            have : ('\n' :: (nlRun j ++ ([] ++ []))) = nlRun (j + 1) := by
              simp [nlRun, List.replicate_succ]
            rw [this]
            exact nlRun_not_pre_short q (j + 1) (by omega)
          | cons c b' =>
            have hc : c ≠ '\n' := fun h => hnb (h ▸ List.mem_cons_self c b')
            have : ('\n' :: (nlRun j ++ (c :: b' ++ s))) =
                nlRun (j + 1) ++ (c :: (b' ++ s)) := by
              simp [nlRun, List.replicate_succ]
            rw [this]
            exact nlRun_not_pre_mid (j + 1) q (by omega) c hc (b' ++ s)
        rw [show nlRun (j + 1) ++ (b ++ s) = '\n' :: (nlRun j ++ (b ++ s)) by
          simp [nlRun, List.replicate_succ]]
        rw [pyReplace_skip _ _ _ _ hnm]
        rw [ih j (by omega) b s hnb hbs]
        have hj : 2 * (j / q) + j % q = j := by
          rw [Nat.div_eq_of_lt (by omega), Nat.mod_eq_of_lt (by omega)]
          omega
        have hk : 2 * ((j + 1) / q) + (j + 1) % q = j + 1 := by
          rw [Nat.div_eq_of_lt (by omega), Nat.mod_eq_of_lt (by omega)]
          omega
        rw [hj, hk]
        simp [nlRun, List.replicate_succ]

/-- One `replace` pass distributes over a well-formed decomposition,
rewriting every run length. -/
theorem pyReplace_nlRun_segs (q : Nat) (hq : 1 ≤ q) :
    ∀ segs : List (Nat × Chars), segsOk segs = true →
      pyReplace (nlRun q) nnPat (render segs) =
        render (segs.map fun p => (2 * (p.1 / q) + p.1 % q, p.2)) := by
  intro segs
  induction segs with
  | nil => intro _; rfl
  | cons p rest ih =>
    intro hok
    obtain ⟨k, b⟩ := p
    simp only [segsOk, Bool.and_eq_true] at hok
    obtain ⟨⟨h1, h2⟩, h3⟩ := hok
    have hnb : '\n' ∉ b := by simpa [noNl] using h1
    have hbs : b = [] → render rest = [] := by
      intro hb
      subst hb
      have hre : rest.isEmpty = true := by simpa using h2
      rw [List.isEmpty_iff.mp hre]
      rfl
    rw [render, pyReplace_nlRun_run q hq k b (render rest) hnb hbs, ih h3,
      List.map_cons, render]

theorem segsOk_map_run (f : Nat → Nat) :
    ∀ segs, segsOk segs = true → segsOk (segs.map fun p => (f p.1, p.2)) = true := by
  intro segs
  induction segs with
  | nil => intro _; rfl
  | cons p rest ih =>
    intro hok
    obtain ⟨k, b⟩ := p
    simp only [segsOk, Bool.and_eq_true] at hok
    obtain ⟨⟨h1, h2⟩, h3⟩ := hok
    simp only [List.map_cons, segsOk, Bool.and_eq_true]
    refine ⟨⟨h1, ?_⟩, ih h3⟩
    cases rest with
    | nil => simp
    | cons r rest' =>
      simp only [List.isEmpty_cons, Bool.false_or] at h2
      simp [h2]

/-- Counterexample to C3 as stated: the body consisting of one maximal run
of six line breaks normalizes to three consecutive breaks, not two. -/
theorem c3_collapse_cex :
    normalize_breaks (List.replicate 6 '\n') = List.replicate 3 '\n' ∧
    List.replicate 3 '\n' ≠ List.replicate 2 '\n' := by
  constructor
  · decide
  · decide

/-- C3 (amended): the line-break normalization step of `clean_message`
(which runs before wrap classification and reflow by construction of
`clean_message`) collapses every maximal run of 3, 4 or 5 consecutive line
breaks to exactly two and leaves runs of ≤ 2 untouched; longer runs (6 and
up) are not guaranteed to reach two. -/
theorem c3_collapse_amended (segs : List (Nat × Chars)) (hwf : segsOk segs = true)
    (_hpos : ∀ p ∈ segs.tail, 1 ≤ p.1) (hb : ∀ p ∈ segs, p.1 ≤ 5) :
    normalize_breaks (render segs) =
      render (segs.map fun p => (if 3 ≤ p.1 then 2 else p.1, p.2)) := by
  unfold normalize_breaks
  rw [show n4Pat = nlRun 4 from rfl, show n3Pat = nlRun 3 from rfl]
  rw [pyReplace_nlRun_segs 4 (by omega) segs hwf]
  rw [pyReplace_nlRun_segs 3 (by omega) _
    (segsOk_map_run (fun k => 2 * (k / 4) + k % 4) segs hwf)]
  rw [List.map_map]
  apply congrArg render
  apply List.map_congr_left
  intro p hp
  have h5 := hb p hp
  obtain ⟨k, b⟩ := p
  simp only [Function.comp_apply]
  have h5' : k ≤ 5 := h5
  interval_cases k <;> rfl

/-- Witness for C3 (amended) on `"a"` + four breaks + `"b"`. -/
theorem c3_collapse_amended_witness :
    normalize_breaks (render [(0, ['a']), (4, ['b'])]) =
      render ([(0, ['a']), (4, ['b'])].map fun p => (if 3 ≤ p.1 then 2 else p.1, p.2)) :=
  c3_collapse_amended [(0, ['a']), (4, ['b'])] (by decide) (by decide) (by decide)

/-! ## Stability of the rendered output under re-collapsing: C9 -/

/-- Every `'\n'` in the string is immediately preceded by `'>'` (`p` is the
character just before the string; any non-`'>'` dummy forbids a leading
break). -/
def gtFrom : Char → Chars → Bool
  | _, [] => true
  | p, c :: rest => (if c = '\n' then decide (p = '>') else true) && gtFrom c rest

theorem gtFrom_cons (p c : Char) (t : Chars) :
    gtFrom p (c :: t) =
      ((if c = '\n' then decide (p = '>') else true) && gtFrom c t) := rfl

/-- Every `'\n'` is immediately preceded by the two characters `"r>"`
(`p2`, `p1` are the two characters just before the string). -/
def nlCtx : Char → Char → Chars → Bool
  | _, _, [] => true
  | p2, p1, c :: rest =>
    (if c = '\n' then decide (p1 = '>' ∧ p2 = 'r') else true) && nlCtx p1 c rest

/-- Every maximal run of `'\n'` has even length (`odd` records whether the
current run has odd length so far). -/
def evenRunsAux : Bool → Chars → Bool
  | odd, [] => !odd
  | odd, c :: rest =>
    if c = '\n' then evenRunsAux (!odd) rest else (!odd && evenRunsAux false rest)

def evenRuns (s : Chars) : Bool := evenRunsAux false s

/-- No two adjacent line breaks. -/
def noNN : Chars → Bool
  | [] => true
  | [_] => true
  | a :: b :: rest => !(a == '\n' && b == '\n') && noNN (b :: rest)

/-- A single-character `replace` is a character substitution. -/
theorem pyReplace_single (a : Char) (repl : Chars) :
    ∀ s : Chars,
      pyReplace [a] repl s = s.flatMap fun c => if c = a then repl else [c] := by
  intro s
  induction s with
  | nil => rfl
  | cons c rest ih =>
    rw [List.flatMap_cons]
    by_cases hc : c = a
    · subst hc
      have hpre : ([c] : Chars).isPrefixOf (c :: rest) = true := by
        rw [List.isPrefixOf_iff_prefix]
        exact ⟨rest, rfl⟩
      rw [pyReplace_cons, if_pos ⟨hpre, by simp⟩,
        show ([c] : Chars).length - 1 = 0 from rfl, List.drop_zero, ih, if_pos rfl]
    · have hpre : ([a] : Chars).isPrefixOf (c :: rest) = false := by
        rw [List.isPrefixOf, List.isPrefixOf]
        have : (a == c) = false := by
          rw [beq_eq_false_iff_ne]
          exact fun h => hc h.symm
        simp [this]
      rw [pyReplace_skip _ _ _ _ hpre, ih, if_neg hc, List.singleton_append]

theorem gtFrom_irrel (p p' : Char) (s : Chars) (h : s.head? ≠ some '\n') :
    gtFrom p s = gtFrom p' s := by
  cases s with
  | nil => rfl
  | cons c rest =>
    have hc : c ≠ '\n' := by simpa using h
    simp [gtFrom, hc]

theorem pyReplace_head_ne (pat repl : Chars) (hr : repl.head? ≠ some '\n')
    (hrne : repl ≠ []) :
    ∀ t : Chars, t.head? ≠ some '\n' → (pyReplace pat repl t).head? ≠ some '\n' := by
  intro t ht
  cases t with
  | nil => simp
  | cons c rest =>
    rw [pyReplace_cons]
    by_cases h : pat.isPrefixOf (c :: rest) = true ∧ pat ≠ []
    · rw [if_pos h]
      cases repl with
      | nil => exact absurd rfl hrne
      | cons r rs => simpa using hr
    · rw [if_neg h]
      simpa using ht

theorem nlCtx_head_ne (p2 p1 : Char) (hp2 : p2 ≠ 'r') (t : Chars)
    (h : nlCtx p2 p1 t = true) : t.head? ≠ some '\n' := by
  cases t with
  | nil => simp
  | cons c rest =>
    intro hc
    simp only [List.head?_cons, Option.some_inj] at hc
    subst hc
    simp only [nlCtx, if_true, Bool.and_eq_true, decide_eq_true_eq, reduceIte] at h
    exact hp2 h.1.2

theorem gtFrom_brBr_append (p : Char) (t : Chars) :
    gtFrom p (brBr ++ t) = gtFrom '\n' t := by
  simp [brBr, gtFrom]

theorem nlCtx_sentinel_append (p2 p1 : Char) (t : Chars) :
    nlCtx p2 p1 (sentinel ++ t) = nlCtx '!' '>' t := by
  simp [sentinel, nlCtx]

theorem nlCtx_brNl_append (p2 p1 : Char) (t : Chars) :
    nlCtx p2 p1 (brNl ++ t) = nlCtx '>' '\n' t := by
  simp [brNl, nlCtx]

/-- After `"\n" → "<br>\n"`, every break sits at the end of an inserted
`"<br>\n"`, hence after `"r>"`. -/
theorem nlCtx_sub (s : Chars) :
    ∀ p2 p1, nlCtx p2 p1 (s.flatMap fun c => if c = '\n' then brNl else [c]) = true := by
  induction s with
  | nil => intro p2 p1; rfl
  | cons c rest ih =>
    intro p2 p1
    rw [List.flatMap_cons]
    by_cases hc : c = '\n'
    · subst hc
      rw [if_pos rfl, nlCtx_brNl_append]
      exact ih '>' '\n'
    · rw [if_neg hc, List.singleton_append]
      simp only [nlCtx, Bool.and_eq_true]
      exact ⟨by simp [hc], ih p1 c⟩

theorem nlCtx_brNl_repl (s : Chars) (p2 p1 : Char) :
    nlCtx p2 p1 (pyReplace nlPat brNl s) = true := by
  rw [show nlPat = ['\n'] from rfl, pyReplace_single]
  exact nlCtx_sub s p2 p1

/-- Replacing the sentinel by `"<br>\n<br>\n"` in a string whose breaks all
follow `"r>"` yields a string whose breaks all follow `'>'`. -/
theorem gt_of_nlCtx_sentinel :
    ∀ (n : Nat) (s : Chars), s.length ≤ n →
      ∀ p2 p1, nlCtx p2 p1 s = true →
        gtFrom p1 (pyReplace sentinel brBr s) = true := by
  intro n
  induction n with
  | zero =>
    intro s hs p2 p1 _
    have hnil : s = [] := List.length_eq_zero.mp (Nat.le_zero.mp hs)
    subst hnil
    rfl
  | succ n ih =>
    intro s hs p2 p1 hctx
    cases s with
    | nil => rfl
    | cons c rest =>
      by_cases hm : sentinel.isPrefixOf (c :: rest) = true
      · obtain ⟨t, ht⟩ := List.isPrefixOf_iff_prefix.mp hm
        rw [← ht] at hctx ⊢
        rw [pyReplace_match _ _ _ (by decide), nlCtx_sentinel_append] at *
        rw [gtFrom_brBr_append]
        have hlen : t.length ≤ n := by
          have h1 : sentinel.length + t.length = rest.length + 1 := by
            rw [← List.length_append, ht]
            rfl
          have h2 : rest.length + 1 ≤ n + 1 := by simpa using hs
          simp only [show sentinel.length = 13 from rfl] at h1
          omega
        have hrec := ih t hlen '!' '>' hctx
        have hhead : t.head? ≠ some '\n' := nlCtx_head_ne '!' '>' (by decide) t hctx
        have hhead2 : (pyReplace sentinel brBr t).head? ≠ some '\n' :=
          pyReplace_head_ne sentinel brBr (by decide) (by decide) t hhead
        rw [gtFrom_irrel '\n' '>' _ hhead2]
        exact hrec
      · have hm' : sentinel.isPrefixOf (c :: rest) = false := Bool.eq_false_iff.mpr hm
        rw [pyReplace_skip _ _ _ _ hm']
        simp only [nlCtx, Bool.and_eq_true] at hctx
        obtain ⟨h1, h2⟩ := hctx
        have hrec := ih rest (by simpa using hs) p1 c h2
        simp only [gtFrom, Bool.and_eq_true]
        refine ⟨?_, hrec⟩
        by_cases hc : c = '\n'
        · subst hc
          rw [if_pos rfl] at h1 ⊢
          simp only [decide_eq_true_eq] at h1 ⊢
          exact h1.1
        · simp [hc]

/-- Every break of the plain rendering branch follows a `'>'`. -/
theorem gt_render_plain (s : Chars) (p : Char) :
    gtFrom p (render_plain s) = true := by
  unfold render_plain
  exact gt_of_nlCtx_sentinel _ _ le_rfl 'x' p
    (nlCtx_brNl_repl (pyReplace nnPat sentinel s) 'x' p)

/-- After `"\n" → " "` no break remains. -/
theorem noNl_spaceSub (s : Chars) : '\n' ∉ pyReplace nlPat [' '] s := by
  rw [show nlPat = ['\n'] from rfl, pyReplace_single]
  intro hmem
  obtain ⟨c, -, hc⟩ := List.mem_flatMap.mp hmem
  by_cases h : c = '\n'
  · rw [if_pos h] at hc
    simp at hc
  · rw [if_neg h] at hc
    simp at hc
    exact h hc.symm

/-- Restoring the sentinel as `"\n\n"` in a break-free string leaves only
even-length break runs. -/
theorem evenRuns_restore :
    ∀ (n : Nat) (s : Chars), s.length ≤ n → '\n' ∉ s →
      evenRuns (pyReplace sentinel nnPat s) = true := by
  intro n
  induction n with
  | zero =>
    intro s hs _
    have hnil : s = [] := List.length_eq_zero.mp (Nat.le_zero.mp hs)
    subst hnil
    rfl
  | succ n ih =>
    intro s hs hnl
    cases s with
    | nil => rfl
    | cons c rest =>
      by_cases hm : sentinel.isPrefixOf (c :: rest) = true
      · obtain ⟨t, ht⟩ := List.isPrefixOf_iff_prefix.mp hm
        rw [← ht] at hnl ⊢
        rw [pyReplace_match _ _ _ (by decide)]
        have hstep : evenRuns (nnPat ++ pyReplace sentinel nnPat t) =
            evenRuns (pyReplace sentinel nnPat t) := by
          simp [nnPat, evenRuns, evenRunsAux]
        rw [hstep]
        have hlen : t.length ≤ n := by
          have h1 : sentinel.length + t.length = rest.length + 1 := by
            rw [← List.length_append, ht]
            rfl
          have h2 : rest.length + 1 ≤ n + 1 := by simpa using hs
          simp only [show sentinel.length = 13 from rfl] at h1
          omega
        exact ih t hlen fun hmem => hnl (List.mem_append_right sentinel hmem)
      · rw [pyReplace_skip _ _ _ _ (Bool.eq_false_iff.mpr hm)]
        have hc : c ≠ '\n' := fun h => hnl (h ▸ List.mem_cons_self c rest)
        have hrec := ih rest (by simpa using hs)
          fun hmem => hnl (List.mem_cons_of_mem c hmem)
        simp [evenRuns, evenRunsAux, hc] at hrec ⊢
        exact hrec

theorem evenRuns_dropWhile_sp :
    ∀ t : Chars, evenRuns (t.dropWhile (· = ' ')) = evenRuns t := by
  intro t
  induction t with
  | nil => rfl
  | cons c rest ih =>
    by_cases hc : c = ' '
    · subst hc
      rw [List.dropWhile_cons, if_pos (by simp), ih]
      simp [evenRuns, evenRunsAux]
    · rw [List.dropWhile_cons]
      simp [hc]

/-- Space collapsing never merges break runs: even runs stay even. -/
theorem evenRuns_collapseSpaces :
    ∀ (n : Nat) (s : Chars), s.length ≤ n → evenRuns s = true →
      evenRuns (collapseSpaces s) = true := by
  intro n
  induction n with
  | zero =>
    intro s hs _
    have hnil : s = [] := List.length_eq_zero.mp (Nat.le_zero.mp hs)
    subst hnil
    rfl
  | succ n ih =>
    intro s hs hev
    cases s with
    | nil => rfl
    | cons c rest =>
      rw [collapseSpaces_cons]
      by_cases hsp : c = ' ' ∧ rest.head? = some ' '
      · rw [if_pos hsp]
        obtain ⟨hc, -⟩ := hsp
        subst hc
        have hev' : evenRuns rest = true := by
          simpa [evenRuns, evenRunsAux] using hev
        have hlen : (rest.dropWhile (· = ' ')).length ≤ n := by
          have h1 : (rest.dropWhile (· = ' ')).length ≤ rest.length :=
            (List.dropWhile_sublist _).length_le
          have h2 : rest.length ≤ n := by simpa using hs
          omega
        have := ih (rest.dropWhile (· = ' ')) hlen
          (by rw [evenRuns_dropWhile_sp]; exact hev')
        simpa [evenRuns, evenRunsAux] using this
      · rw [if_neg hsp]
        by_cases hc : c = '\n'
        · subst hc
          cases rest with
          | nil => simp [evenRuns, evenRunsAux] at hev
          | cons d r =>
            by_cases hd : d = '\n'
            · subst hd
              have hr : evenRuns r = true := by
                simpa [evenRuns, evenRunsAux] using hev
              rw [collapseSpaces_cons, if_neg (by simp)]
              have hlen : r.length ≤ n := by
                have : r.length + 2 ≤ n + 1 := by simpa using hs
                omega
              have := ih r hlen hr
              simpa [evenRuns, evenRunsAux] using this
            · simp [evenRuns, evenRunsAux, hd] at hev
        · have hev' : evenRuns rest = true := by
            simpa [evenRuns, evenRunsAux, hc] using hev
          have := ih rest (by simpa using hs) hev'
          simpa [evenRuns, evenRunsAux, hc] using this

/-- Rendering `"\n\n"` as `"<br>\n<br>\n"` on a string with even break runs
leaves every break after a `'>'`. -/
theorem gt_pairs_to_brBr :
    ∀ (n : Nat) (s : Chars), s.length ≤ n → evenRuns s = true →
      ∀ p, gtFrom p (pyReplace nnPat brBr s) = true := by
  intro n
  induction n with
  | zero =>
    intro s hs _ p
    have hnil : s = [] := List.length_eq_zero.mp (Nat.le_zero.mp hs)
    subst hnil
    rfl
  | succ n ih =>
    intro s hs hev p
    cases s with
    | nil => rfl
    | cons c rest =>
      by_cases hm : nnPat.isPrefixOf (c :: rest) = true
      · obtain ⟨t, ht⟩ := List.isPrefixOf_iff_prefix.mp hm
        rw [← ht] at hev ⊢
        rw [pyReplace_match _ _ _ (by decide), gtFrom_brBr_append]
        have hev' : evenRuns t = true := by
          simpa [nnPat, evenRuns, evenRunsAux] using hev
        have hlen : t.length ≤ n := by
          have h1 : nnPat.length + t.length = rest.length + 1 := by
            rw [← List.length_append, ht]
            rfl
          have h2 : rest.length + 1 ≤ n + 1 := by simpa using hs
          simp only [show nnPat.length = 2 from rfl] at h1
          omega
        exact ih t hlen hev' '\n'
      · rw [pyReplace_skip _ _ _ _ (Bool.eq_false_iff.mpr hm)]
        by_cases hc : c = '\n'
        · subst hc
          exfalso
          cases rest with
          | nil => simp [evenRuns, evenRunsAux] at hev
          | cons d r =>
            by_cases hd : d = '\n'
            · subst hd
              apply hm
              rw [show nnPat = ['\n', '\n'] from rfl, List.isPrefixOf_cons₂_self,
                List.isPrefixOf_cons₂_self]
              simp [List.isPrefixOf]
            · simp [evenRuns, evenRunsAux, hd] at hev
        · have hev' : evenRuns rest = true := by
            simpa [evenRuns, evenRunsAux, hc] using hev
          simp only [gtFrom, Bool.and_eq_true]
          exact ⟨by simp [hc], ih rest (by simpa using hs) hev' c⟩

/-- Every break of the wrapped rendering branch follows a `'>'`. -/
theorem gt_render_wrapped (s : Chars) (p : Char) :
    gtFrom p (render_wrapped s) = true := by
  unfold render_wrapped
  exact gt_pairs_to_brBr _ _ le_rfl
    (evenRuns_collapseSpaces _ _ le_rfl
      (evenRuns_restore _ _ le_rfl (noNl_spaceSub _))) p

/-- When the string's only line boundary is the plain `'\n'` and every
break follows a `'>'`, splitting yields no empty line. -/
theorem pySLgo_ne_nil :
    ∀ (s : Chars) (p : Char) (acc : Chars), gtFrom p s = true →
      (∀ c ∈ s, isLineBoundary c = true → c = '\n') →
      (acc = [] → p ≠ '>') → ∀ l ∈ pySLgo s acc, l ≠ [] := by
  intro s
  induction s with
  | nil =>
    intro p acc _ _ _ l hl
    unfold pySLgo at hl
    by_cases ha : acc = []
    · rw [if_pos ha] at hl
      simp at hl
    · rw [if_neg ha] at hl
      simp only [List.mem_singleton] at hl
      subst hl
      simpa using ha
  | cons c tail ih =>
    intro p acc hgt hob hacc l hl
    cases tail with
    | nil =>
      unfold pySLgo at hl
      by_cases hlb : isLineBoundary c = true
      · have hcn : c = '\n' := hob c (List.mem_cons_self c []) hlb
        subst hcn
        rw [if_pos (by decide)] at hl
        simp only [List.mem_singleton] at hl
        subst hl
        rw [gtFrom_cons, if_pos rfl] at hgt
        simp only [Bool.and_eq_true, decide_eq_true_eq] at hgt
        have hane : acc ≠ [] := fun ha => (hacc ha) hgt.1
        simpa using hane
      · rw [if_neg hlb] at hl
        simp only [List.mem_singleton] at hl
        subst hl
        simp
    | cons d rest =>
      have hcr : ¬(c = '\r' ∧ d = '\n') := by
        rintro ⟨hc, -⟩
        have hmm := hob c (List.mem_cons_self c (d :: rest)) (by rw [hc]; decide)
        rw [hc] at hmm
        exact absurd hmm (by decide)
      unfold pySLgo at hl
      rw [if_neg hcr] at hl
      by_cases hlb : isLineBoundary c = true
      · have hcn : c = '\n' := hob c (List.mem_cons_self c (d :: rest)) hlb
        subst hcn
        rw [if_pos (by decide)] at hl
        rw [gtFrom_cons, if_pos rfl] at hgt
        simp only [Bool.and_eq_true, decide_eq_true_eq] at hgt
        obtain ⟨hp, hrest⟩ := hgt
        rcases List.mem_cons.mp hl with rfl | hl'
        · have hane : acc ≠ [] := fun ha => (hacc ha) hp
          simpa using hane
        · exact ih '\n' [] hrest
            (fun x hx => hob x (List.mem_cons_of_mem _ hx)) (fun _ => by decide) l hl'
      · rw [if_neg hlb] at hl
        have hcn : c ≠ '\n' := fun hc => hlb (by rw [hc]; decide)
        have hrest : gtFrom c (d :: rest) = true := by
          rw [gtFrom_cons, if_neg hcn, Bool.true_and] at hgt
          exact hgt
        exact ih c (c :: acc) hrest
          (fun x hx => hob x (List.mem_cons_of_mem _ hx))
          (fun h => absurd h (List.cons_ne_nil c acc)) l hl

theorem pySLgo_noNl :
    ∀ (s : Chars) (acc : Chars), '\n' ∉ acc →
      (∀ c ∈ s, isLineBoundary c = true → c = '\n') →
      ∀ l ∈ pySLgo s acc, '\n' ∉ l := by
  intro s
  induction s with
  | nil =>
    intro acc hacc _ l hl
    unfold pySLgo at hl
    by_cases ha : acc = []
    · rw [if_pos ha] at hl
      simp at hl
    · rw [if_neg ha] at hl
      simp only [List.mem_singleton] at hl
      subst hl
      simpa using hacc
  | cons c tail ih =>
    intro acc hacc hob l hl
    cases tail with
    | nil =>
      unfold pySLgo at hl
      by_cases hlb : isLineBoundary c = true
      · rw [if_pos hlb] at hl
        simp only [List.mem_singleton] at hl
        subst hl
        simpa using hacc
      · rw [if_neg hlb] at hl
        simp only [List.mem_singleton] at hl
        subst hl
        have hcn : c ≠ '\n' := fun hc => hlb (by rw [hc]; decide)
        simp only [List.mem_reverse]
        intro hmem
        rcases List.mem_cons.mp hmem with h | h
        · exact hcn h.symm
        · exact hacc h
    | cons d rest =>
      have hcr : ¬(c = '\r' ∧ d = '\n') := by
        rintro ⟨hc, -⟩
        have hmm := hob c (List.mem_cons_self c (d :: rest)) (by rw [hc]; decide)
        rw [hc] at hmm
        exact absurd hmm (by decide)
      unfold pySLgo at hl
      rw [if_neg hcr] at hl
      by_cases hlb : isLineBoundary c = true
      · rw [if_pos hlb] at hl
        rcases List.mem_cons.mp hl with rfl | hl'
        · simpa using hacc
        · exact ih [] (by simp) (fun x hx => hob x (List.mem_cons_of_mem _ hx)) l hl'
      · rw [if_neg hlb] at hl
        have hcn : c ≠ '\n' := fun hc => hlb (by rw [hc]; decide)
        have hacc' : '\n' ∉ c :: acc := by
          intro hmem
          rcases List.mem_cons.mp hmem with h | h
          · exact hcn h.symm
          · exact hacc h
        exact ih (c :: acc) hacc' (fun x hx => hob x (List.mem_cons_of_mem _ hx)) l hl

theorem noNN_tail (a : Char) (t : Chars) (h : noNN (a :: t) = true) : noNN t = true := by
  cases t with
  | nil => rfl
  | cons b r =>
    simp only [noNN, Bool.and_eq_true] at h
    exact h.2

theorem noNN_of_noNl : ∀ t : Chars, '\n' ∉ t → noNN t = true := by
  intro t
  induction t with
  | nil => intro _; rfl
  | cons a t ih =>
    intro h
    cases t with
    | nil => rfl
    | cons b r =>
      have ha : a ≠ '\n' := fun hh => h (hh ▸ List.mem_cons_self a (b :: r))
      have hbeq : (a == '\n') = false := by
        rw [beq_eq_false_iff_ne]
        exact ha
      simp only [noNN, Bool.and_eq_true, hbeq, Bool.false_and, Bool.not_false, true_and]
      exact ih fun hm => h (List.mem_cons_of_mem a hm)

theorem noNN_append_noNl (l : Chars) : ∀ u : Chars, '\n' ∉ l →
    noNN (l ++ u) = noNN u := by
  induction l with
  | nil => intro u _; rfl
  | cons a l ih =>
    intro u h
    have ha : a ≠ '\n' := fun hh => h (hh ▸ List.mem_cons_self a l)
    have hbeq : (a == '\n') = false := by
      rw [beq_eq_false_iff_ne]
      exact ha
    have hl : '\n' ∉ l := fun hm => h (List.mem_cons_of_mem a hm)
    cases l with
    | nil =>
      cases u with
      | nil => rfl
      | cons b u' =>
        simp only [List.nil_append, List.cons_append, noNN, hbeq, Bool.false_and,
          Bool.not_false, Bool.true_and]
    | cons a' l' =>
      simp only [List.cons_append, noNN, hbeq, Bool.false_and, Bool.not_false,
        Bool.true_and]
      show noNN ((a' :: l') ++ u) = noNN u
      exact ih u hl

theorem joinNL_head_cons (m : Chars) (rest : List Chars) (hm : m ≠ []) :
    (joinNL (m :: rest)).head? = m.head? := by
  cases rest with
  | nil => rfl
  | cons r rs =>
    show (m ++ '\n' :: joinNL (r :: rs)).head? = m.head?
    cases m with
    | nil => exact absurd rfl hm
    | cons a m' => rfl

/-- Joining break-free lines, all nonempty except possibly the last, yields
no two adjacent breaks. -/
theorem noNN_join : ∀ ls : List Chars,
    (∀ l ∈ ls, '\n' ∉ l) → (∀ l ∈ ls.dropLast, l ≠ []) →
      noNN (joinNL ls) = true := by
  intro ls
  induction ls with
  | nil => intro _ _; rfl
  | cons l rest ih =>
    intro hnl hne
    cases rest with
    | nil => exact noNN_of_noNl l (hnl l (List.mem_cons_self l []))
    | cons m rs =>
      show noNN (l ++ '\n' :: joinNL (m :: rs)) = true
      rw [noNN_append_noNl l _ (hnl l (List.mem_cons_self l (m :: rs)))]
      have hJ : noNN (joinNL (m :: rs)) = true := by
        apply ih
        · intro x hx
          exact hnl x (List.mem_cons_of_mem l hx)
        · intro x hx
          apply hne
          rw [show (l :: m :: rs).dropLast = l :: (m :: rs).dropLast from rfl]
          exact List.mem_cons_of_mem l hx
      cases hu : joinNL (m :: rs) with
      | nil => decide
      | cons d u' =>
        have hd : d ≠ '\n' := by
          cases rs with
          | nil =>
            have hmnl : '\n' ∉ m := hnl m (by simp)
            intro hdd
            apply hmnl
            rw [show joinNL [m] = m from rfl] at hu
            rw [hu, hdd]
            exact List.mem_cons_self _ _
          | cons r2 rs2 =>
            have hm : m ≠ [] := by
              apply hne
              rw [show (l :: m :: r2 :: rs2).dropLast =
                l :: (m :: r2 :: rs2).dropLast from rfl,
                show (m :: r2 :: rs2).dropLast = m :: (r2 :: rs2).dropLast from rfl]
              exact List.mem_cons_of_mem l (List.mem_cons_self m _)
            have hh := joinNL_head_cons m (r2 :: rs2) hm
            rw [hu] at hh
            intro hdd
            subst hdd
            cases m with
            | nil => exact absurd rfl hm
            | cons a m' =>
              simp only [List.head?_cons, Option.some_inj] at hh
              exact hnl (a :: m') (List.mem_cons_of_mem l (List.mem_cons_self _ _))
                (hh ▸ List.mem_cons_self a m')
        have hbeq : (d == '\n') = false := by
          rw [beq_eq_false_iff_ne]
          exact hd
        rw [hu] at hJ
        simp only [noNN, Bool.and_eq_true, hbeq, Bool.and_false, Bool.not_false, true_and]
        exact hJ

/-- The trailing cleanup either leaves the lines unchanged or blanks the
last one. -/
theorem trailing_cleanup_shape (ido : Chars → Bool) (ls : List Chars) :
    trailing_cleanup ido ls = ls ∨ trailing_cleanup ido ls = blankLast ls := by
  unfold trailing_cleanup
  dsimp only
  by_cases hemp : ls.isEmpty = true
  · rw [if_pos hemp]
    exact Or.inl rfl
  · rw [if_neg hemp]
    by_cases hd : startsDashes (ls.getLastD []) = true
    · right
      rw [if_pos hd, blankLast_getLastD, if_neg (by simp)]
    · by_cases hdt : is_date ido (ls.getLastD []) = true
      · right
        rw [if_neg hd, if_pos hdt]
      · left
        rw [if_neg hd, if_neg hdt]

theorem pre_nlRun_two (q : Nat) (hq : 2 ≤ q) (t : Chars)
    (h : (nlRun q).isPrefixOf t = true) : ∃ u, t = '\n' :: '\n' :: u := by
  obtain ⟨v, hv⟩ := List.isPrefixOf_iff_prefix.mp h
  obtain ⟨q', rfl⟩ : ∃ q', q = q' + 2 := ⟨q - 2, by omega⟩
  refine ⟨nlRun q' ++ v, ?_⟩
  rw [← hv, nlRun, show q' + 2 = (q' + 1) + 1 from rfl, List.replicate_succ,
    List.replicate_succ]
  simp [nlRun]

theorem pyReplace_id_of_noNN (q : Nat) (hq : 2 ≤ q) (repl : Chars) :
    ∀ s : Chars, noNN s = true → pyReplace (nlRun q) repl s = s := by
  intro s
  induction s with
  | nil => intro _; rfl
  | cons c rest ih =>
    intro h
    have hnm : (nlRun q).isPrefixOf (c :: rest) = false := by
      cases hmm : (nlRun q).isPrefixOf (c :: rest)
      · rfl
      · obtain ⟨u, hu⟩ := pre_nlRun_two q hq _ hmm
        rw [hu] at h
        simp [noNN] at h
    rw [pyReplace_skip _ _ _ _ hnm, ih (noNN_tail c rest h)]

/-- Re-collapsing break runs is the identity on strings with no two adjacent
breaks. -/
theorem normalize_breaks_id (s : Chars) (h : noNN s = true) :
    normalize_breaks s = s := by
  unfold normalize_breaks
  rw [show n4Pat = nlRun 4 from rfl, show n3Pat = nlRun 3 from rfl]
  rw [pyReplace_id_of_noNN 4 (by omega) nnPat s h,
    pyReplace_id_of_noNN 3 (by omega) nnPat s h]

/-- The only line-boundary character occurring in `s` is the plain line
feed. -/
def onlyNlB (s : Chars) : Prop :=
  ∀ c ∈ s, isLineBoundary c = true → c = '\n'

instance (s : Chars) : Decidable (onlyNlB s) := by
  unfold onlyNlB
  infer_instance

/-- Characters of a `replace` output come from the input or the
replacement. -/
theorem mem_pyReplace :
    ∀ (n : Nat) (pat repl s : Chars), s.length ≤ n →
      ∀ c ∈ pyReplace pat repl s, c ∈ s ∨ c ∈ repl := by
  intro n
  induction n with
  | zero =>
    intro pat repl s hs c hc
    have hnil : s = [] := List.length_eq_zero.mp (Nat.le_zero.mp hs)
    subst hnil
    simp at hc
  | succ n ih =>
    intro pat repl s hs c hc
    cases s with
    | nil => simp at hc
    | cons d rest =>
      rw [pyReplace_cons] at hc
      by_cases h : pat.isPrefixOf (d :: rest) = true ∧ pat ≠ []
      · rw [if_pos h] at hc
        rcases List.mem_append.mp hc with h1 | h1
        · exact Or.inr h1
        · have hlen : (List.drop (pat.length - 1) rest).length ≤ n := by
            have h2 : rest.length ≤ n := by simpa using hs
            simp only [List.length_drop]
            omega
          rcases ih pat repl _ hlen c h1 with h2 | h2
          · exact Or.inl (List.mem_cons_of_mem d (List.mem_of_mem_drop h2))
          · exact Or.inr h2
      · rw [if_neg h] at hc
        rcases List.mem_cons.mp hc with rfl | h1
        · exact Or.inl (List.mem_cons_self _ _)
        · rcases ih pat repl rest (by simpa using hs) c h1 with h2 | h2
          · exact Or.inl (List.mem_cons_of_mem d h2)
          · exact Or.inr h2

/-- Characters of the space-collapsed output come from the input or are a
space. -/
theorem mem_collapseSpaces :
    ∀ (n : Nat) (s : Chars), s.length ≤ n →
      ∀ c ∈ collapseSpaces s, c ∈ s ∨ c = ' ' := by
  intro n
  induction n with
  | zero =>
    intro s hs c hc
    have hnil : s = [] := List.length_eq_zero.mp (Nat.le_zero.mp hs)
    subst hnil
    simp at hc
  | succ n ih =>
    intro s hs c hc
    cases s with
    | nil => simp at hc
    | cons d rest =>
      rw [collapseSpaces_cons] at hc
      by_cases h : d = ' ' ∧ rest.head? = some ' '
      · rw [if_pos h] at hc
        rcases List.mem_cons.mp hc with rfl | h1
        · exact Or.inr rfl
        · have hlen : (rest.dropWhile (· = ' ')).length ≤ n := by
            have h1' : (rest.dropWhile (· = ' ')).length ≤ rest.length :=
              (List.dropWhile_sublist _).length_le
            have h2 : rest.length ≤ n := by simpa using hs
            omega
          rcases ih _ hlen c h1 with h2 | h2
          · exact Or.inl (List.mem_cons_of_mem d ((List.dropWhile_sublist _).subset h2))
          · exact Or.inr h2
      · rw [if_neg h] at hc
        rcases List.mem_cons.mp hc with rfl | h1
        · exact Or.inl (List.mem_cons_self _ _)
        · rcases ih rest (by simpa using hs) c h1 with h2 | h2
          · exact Or.inl (List.mem_cons_of_mem d h2)
          · exact Or.inr h2

theorem onlyNlB_pyReplace (pat repl s : Chars) (hs : onlyNlB s) (hr : onlyNlB repl) :
    onlyNlB (pyReplace pat repl s) := by
  intro c hc hb
  rcases mem_pyReplace s.length pat repl s le_rfl c hc with h | h
  · exact hs c h hb
  · exact hr c h hb

theorem onlyNlB_collapseSpaces (s : Chars) (hs : onlyNlB s) :
    onlyNlB (collapseSpaces s) := by
  intro c hc hb
  rcases mem_collapseSpaces s.length s le_rfl c hc with h | h
  · exact hs c h hb
  · subst h
    exact absurd hb (by decide)

theorem onlyNlB_render_plain (s : Chars) (hs : onlyNlB s) :
    onlyNlB (render_plain s) := by
  unfold render_plain
  exact onlyNlB_pyReplace _ _ _
    (onlyNlB_pyReplace _ _ _
      (onlyNlB_pyReplace _ _ _ hs (by decide)) (by decide)) (by decide)

theorem onlyNlB_render_wrapped (s : Chars) (hs : onlyNlB s) :
    onlyNlB (render_wrapped s) := by
  unfold render_wrapped
  exact onlyNlB_pyReplace _ _ _
    (onlyNlB_collapseSpaces _
      (onlyNlB_pyReplace _ _ _
        (onlyNlB_pyReplace _ _ _
          (onlyNlB_pyReplace _ _ _ hs (by decide)) (by decide)) (by decide))) (by decide)

theorem noNN_cleanup_of_gt (ido : Chars → Bool) (r : Chars)
    (hgt : gtFrom 'a' r = true) (hob : onlyNlB r) :
    noNN (joinNL (trailing_cleanup ido (pySplitlines r))) = true := by
  have hne : ∀ l ∈ pySplitlines r, l ≠ [] :=
    pySLgo_ne_nil r 'a' [] hgt hob fun _ => by decide
  have hnl : ∀ l ∈ pySplitlines r, '\n' ∉ l :=
    pySLgo_noNl r [] (by simp) hob
  rcases trailing_cleanup_shape ido (pySplitlines r) with h | h <;> rw [h]
  · exact noNN_join _ hnl fun l hl => hne l (List.dropLast_subset _ hl)
  · apply noNN_join
    · intro l hl
      rcases List.mem_append.mp hl with hl' | hl'
      · exact hnl l (List.dropLast_subset _ hl')
      · simp only [List.mem_singleton] at hl'
        subst hl'
        simp
    · intro l hl
      rw [show blankLast (pySplitlines r) =
        (pySplitlines r).dropLast ++ [[]] from rfl, List.dropLast_concat] at hl
      exact hne l (List.dropLast_subset _ hl)

/-- Counterexample to C9 as stated: for the body `"a\r\r\rb"` (carriage
returns are line boundaries for `splitlines` but not for the `"\n"`-based
collapsing and rendering), `clean_message` outputs `"a\n\n\nb"`, a run of
three raw line breaks, which re-collapsing alters. -/
theorem c9_render_cex :
    clean_message (fun _ => false) ['a', '\r', '\r', '\r', 'b'] =
      ['a', '\n', '\n', '\n', 'b'] ∧
    normalize_breaks ['a', '\n', '\n', '\n', 'b'] ≠ ['a', '\n', '\n', '\n', 'b'] := by
  constructor
  · decide
  · decide

/-- C9 (amended): for every body whose only line-boundary character is the
plain line feed (no `'\r'`, `'\v'`, `'\f'`, FS/GS/RS, NEL, or Unicode
line/paragraph separator), the break-marker output of `clean_message` is
stable under the line-break re-collapsing step — rendered output never
contains two adjacent raw line breaks, so re-applying the run-collapsing
normalization leaves it (and in particular every paragraph boundary)
unchanged. -/
theorem c9_render_stable_amended (ido : Chars → Bool) (body : Chars)
    (hob : onlyNlB body) :
    normalize_breaks (clean_message ido body) = clean_message ido body := by
  unfold clean_message
  by_cases hb : body = []
  · rw [if_pos hb]
    rfl
  · rw [if_neg hb]
    dsimp only
    have hob' : onlyNlB (normalize_breaks body) := by
      unfold normalize_breaks
      exact onlyNlB_pyReplace _ _ _
        (onlyNlB_pyReplace _ _ _ hob (by decide)) (by decide)
    apply normalize_breaks_id
    by_cases hw : has_word_wrapping (normalize_breaks body) = true
    · rw [if_pos hw]
      exact noNN_cleanup_of_gt ido _ (gt_render_wrapped _ 'a')
        (onlyNlB_render_wrapped _ hob')
    · rw [if_neg hw]
      exact noNN_cleanup_of_gt ido _ (gt_render_plain _ 'a')
        (onlyNlB_render_plain _ hob')

/-- Witness for C9 (amended) on a two-line LF-only body. -/
theorem c9_render_stable_amended_witness :
    normalize_breaks (clean_message (fun _ => false) ['h', 'i', '\n', 'y', 'o']) =
      clean_message (fun _ => false) ['h', 'i', '\n', 'y', 'o'] :=
  c9_render_stable_amended (fun _ => false) ['h', 'i', '\n', 'y', 'o'] (by decide)
